import Mathlib

/-!
# Verification of the decopy scanning pipeline

A shallow embedding of the parts of the decopy repository that the checked
claims are about: the hasher worker (`src/hash.rs`), the reader worker
(`src/read.rs`), the byte-size formatter/parser (`src/bytes.rs`), the
previously-read index (`src/shared.rs`), the buffer pool
(`src/available_buffers.rs`) and the persistent-index prefix scan
(`src/storage.rs`).  Machine integers are modelled as `Nat` with explicit
`% 2 ^ w` where overflow matters; bytes as `Nat` (kept below 256 by
construction) except for raw path bytes, which are `Fin 256`.
-/

deriving instance DecidableEq for Except

namespace Decopy

/-! ## SHA-256 (FIPS 180-4), executable over byte lists

The repository hashes file contents with the `sha2` crate's `Sha256`.
The crate is an external dependency, so its one-shot digest function is
embedded here directly from the SHA-256 standard, and the incremental
`update`/`finalize_reset` API is modelled as accumulation of the bytes fed
in so far (the crate's documented behaviour: the digest of a sequence of
`update` calls is the digest of the concatenation of their inputs). -/

/-- Truncation to a 32-bit word. -/
def w32 (n : Nat) : Nat := n % 4294967296

/-- 32-bit right rotation; the argument is assumed already reduced mod 2^32. -/
def rotr (k x : Nat) : Nat := w32 ((x >>> k) ||| (x <<< (32 - k)))

def bigSigma0 (x : Nat) : Nat := (rotr 2 x) ^^^ (rotr 13 x) ^^^ (rotr 22 x)
def bigSigma1 (x : Nat) : Nat := (rotr 6 x) ^^^ (rotr 11 x) ^^^ (rotr 25 x)
def smallSigma0 (x : Nat) : Nat := (rotr 7 x) ^^^ (rotr 18 x) ^^^ (x >>> 3)
def smallSigma1 (x : Nat) : Nat := (rotr 17 x) ^^^ (rotr 19 x) ^^^ (x >>> 10)
def chFn (x y z : Nat) : Nat := (x &&& y) ^^^ ((4294967295 ^^^ x) &&& z)
def majFn (x y z : Nat) : Nat := (x &&& y) ^^^ (x &&& z) ^^^ (y &&& z)

/-- The 64 SHA-256 round constants (FIPS 180-4 §4.2.2, in decimal). -/
def sha256K : List Nat :=
  [1116352408, 1899447441, 3049323471, 3921009573, 961987163, 1508970993,
   2453635748, 2870763221, 3624381080, 310598401, 607225278, 1426881987,
   1925078388, 2162078206, 2614888103, 3248222580, 3835390401, 4022224774,
   264347078, 604807628, 770255983, 1249150122, 1555081692, 1996064986,
   2554220882, 2821834349, 2952996808, 3210313671, 3336571891, 3584528711,
   113926993, 338241895, 666307205, 773529912, 1294757372, 1396182291,
   1695183700, 1986661051, 2177026350, 2456956037, 2730485921, 2820302411,
   3259730800, 3345764771, 3516065817, 3600352804, 4094571909, 275423344,
   430227734, 506948616, 659060556, 883997877, 958139571, 1322822218,
   1537002063, 1747873779, 1955562222, 2024104815, 2227730452, 2361852424,
   2428436474, 2756734187, 3204031479, 3329325298]

/-- The SHA-256 initial hash value (FIPS 180-4 §5.3.3, in decimal). -/
def sha256H0 : List Nat :=
  [1779033703, 3144134277, 1013904242, 2773480762,
   1359893119, 2600822924, 528734635, 1541459225]

/-- Group bytes into big-endian 32-bit words, four bytes per word. -/
def bytesToWords : List Nat → List Nat
  | a :: b :: c :: d :: rest => (((a * 256 + b) * 256 + c) * 256 + d) :: bytesToWords rest
  | _ => []

/-- Extend the 16 words of a block with `n` further scheduled words. -/
def extendW (w : List Nat) : Nat → List Nat
  | 0 => w
  | n + 1 =>
      let t := w32 (smallSigma1 (w.getD (w.length - 2) 0) + w.getD (w.length - 7) 0
                    + smallSigma0 (w.getD (w.length - 15) 0) + w.getD (w.length - 16) 0)
      extendW (w ++ [t]) n

/-- The working variables a–h of the compression function. -/
structure CompState where
  a : Nat
  b : Nat
  c : Nat
  d : Nat
  e : Nat
  f : Nat
  g : Nat
  h : Nat
deriving Repr, DecidableEq

/-- One round of the SHA-256 compression function. -/
def sha256Round (st : CompState) (kw : Nat × Nat) : CompState :=
  let t1 := w32 (st.h + bigSigma1 st.e + chFn st.e st.f st.g + kw.1 + kw.2)
  let t2 := w32 (bigSigma0 st.a + majFn st.a st.b st.c)
  ⟨w32 (t1 + t2), st.a, st.b, st.c, w32 (st.d + t1), st.e, st.f, st.g⟩

/-- Compress one 64-byte block into the running hash value. -/
def sha256Compress (H : List Nat) (block : List Nat) : List Nat :=
  let ws := extendW (bytesToWords block) 48
  let st0 : CompState :=
    ⟨H.getD 0 0, H.getD 1 0, H.getD 2 0, H.getD 3 0,
     H.getD 4 0, H.getD 5 0, H.getD 6 0, H.getD 7 0⟩
  let st := (sha256K.zip ws).foldl sha256Round st0
  [w32 (H.getD 0 0 + st.a), w32 (H.getD 1 0 + st.b), w32 (H.getD 2 0 + st.c),
   w32 (H.getD 3 0 + st.d), w32 (H.getD 4 0 + st.e), w32 (H.getD 5 0 + st.f),
   w32 (H.getD 6 0 + st.g), w32 (H.getD 7 0 + st.h)]

/-- Fold the compression function over `n` consecutive 64-byte blocks. -/
def foldBlocksN : Nat → List Nat → List Nat → List Nat
  | 0, H, _ => H
  | n + 1, H, msg => foldBlocksN n (sha256Compress H (msg.take 64)) (msg.drop 64)

/-- Fold the compression function over all the 64-byte blocks of `msg`
(whose length is a multiple of 64 after padding). -/
def foldBlocks (H : List Nat) (msg : List Nat) : List Nat :=
  foldBlocksN (msg.length / 64) H msg

/-- `k` big-endian bytes of `n`. -/
def natToBytesBE : Nat → Nat → List Nat
  | 0, _ => []
  | k + 1, n => natToBytesBE k (n >>> 8) ++ [n % 256]

/-- SHA-256 padding: a 0x80 byte, zeros to 56 mod 64, then the bit length
as 8 big-endian bytes. -/
def padMessage (msg : List Nat) : List Nat :=
  msg ++ 128 :: List.replicate ((119 - msg.length % 64) % 64) 0
      ++ natToBytesBE 8 (8 * msg.length)

/-- The SHA-256 digest (32 bytes) of a byte list. -/
def sha256 (msg : List Nat) : List Nat :=
  ((foldBlocks sha256H0 (padMessage msg)).map (natToBytesBE 4)).flatten

/-- The SHA-256 digest of the empty input, as the spec's scenario S1 states it:
e3b0c44298fc1c149afbf4c8996fb92427ae41e4649b934ca495991b7852b855. -/
def emptySha256 : List Nat :=
  [227, 176, 196, 66, 152, 252, 28, 20,
   154, 251, 244, 200, 153, 111, 185, 36,
   39, 174, 65, 228, 100, 155, 147, 76,
   164, 149, 153, 27, 120, 82, 184, 85]

/-! ## Byte sizes (src/bytes.rs)

`Bytes` is a newtype over `u64`; its `Display` impl and `FromStr` impl are
embedded below.  A `u64` value is a `Nat` together with the side condition
`v < 2 ^ 64` where it matters. -/

/-- Decimal digit characters, for rendering `u64` values the way Rust's
`{}` formatting does. -/
def digitChar (d : Nat) : Char :=
  ['0', '1', '2', '3', '4', '5', '6', '7', '8', '9'].getD d '0'

/-- Little-endian decimal digit list of `n`; `fuel ≥ n` suffices. -/
def natToDecimalGo : Nat → Nat → List Char
  | 0, _ => []
  | fuel + 1, n => if n = 0 then [] else digitChar (n % 10) :: natToDecimalGo fuel (n / 10)

/-- The decimal rendering of a `Nat`, as Rust's `{}` renders a `u64`. -/
def natToDecimal (n : Nat) : List Char :=
  if n = 0 then ['0'] else (natToDecimalGo n n).reverse

/-- Numeric value of a decimal digit string (Rust `u64::from_str` modulo the
overflow check, which the caller performs on the value). -/
def decimalValue (ds : List Char) : Nat :=
  ds.foldl (fun a c => a * 10 + (c.toNat - 48)) 0

/-- `Bytes::PREFIX_SYMBOLS = *b" KMGTPE"`. -/
def PREFIX_SYMBOLS : List Char := [' ', 'K', 'M', 'G', 'T', 'P', 'E']

/-- The `while whole >> 10 != 0 { symbol += 1; whole >>= 10 }` loop of
`Bytes::with_symbol`, with structural fuel (any `fuel ≥ whole` runs the loop
to completion, since each iteration divides `whole` by 1024). -/
def withSymbolGo : Nat → Nat → Nat → Nat × Nat
  | 0, whole, symbol => (whole, symbol)
  | fuel + 1, whole, symbol =>
      if whole >>> 10 = 0 then (whole, symbol)
      else withSymbolGo fuel (whole >>> 10) (symbol + 1)

/-- `Bytes::with_symbol`: the displayed whole part and prefix-symbol index. -/
def withSymbol (v : Nat) : Nat × Nat := withSymbolGo v v 0

/-- The `Display` impl for `Bytes` (non-alternate form): `"{v}B"` below 1024,
otherwise `"{whole}{symbol}B"` from `with_symbol`. -/
def bytesDisplay (v : Nat) : String :=
  if v < 1024 then String.mk (natToDecimal v ++ ['B'])
  else String.mk (natToDecimal (withSymbol v).1
        ++ [PREFIX_SYMBOLS.getD (withSymbol v).2 ' ', 'B'])

/-- The value a rendered byte size denotes: `v` truncated to the precision
the displayed unit keeps, `(v >>> 10k) <<< 10k` for `k` shifts of the
`with_symbol` loop. -/
def displayTrunc (v : Nat) : Nat :=
  (withSymbol v).1 <<< (10 * (withSymbol v).2)

/-- The unit arms of the `match &s[digits..]` in `FromStr for Bytes`,
as an association list: each accepted unit spelling with its shift. -/
def unitTable : List (String × Nat) :=
  [("B", 0), ("b", 0),
   ("K", 10), ("k", 10), ("KB", 10), ("kB", 10), ("kb", 10),
   ("KiB", 10), ("kib", 10), ("kiB", 10),
   ("M", 20), ("m", 20), ("MB", 20), ("mb", 20), ("MiB", 20), ("mib", 20),
   ("G", 30), ("g", 30), ("GB", 30), ("gb", 30), ("GiB", 30), ("gib", 30),
   ("T", 40), ("t", 40), ("TB", 40), ("tb", 40), ("TiB", 40), ("tib", 40),
   ("P", 50), ("p", 50), ("PB", 50), ("pb", 50), ("PiB", 50), ("pib", 50),
   ("E", 60), ("e", 60), ("EB", 60), ("eb", 60), ("EiB", 60), ("eib", 60)]

/-- Shift for a unit string, `none` for an unrecognized unit. -/
def unitShift (u : String) : Option Nat := unitTable.lookup u

/-- `u64::rotate_left` on a value `n < 2 ^ 64`. -/
def rotateLeft64 (n s : Nat) : Nat :=
  ((n <<< (s % 64)) % 18446744073709551616) ||| (n >>> (64 - s % 64))

/-- The `FromStr` impl for `Bytes`.  Works on the character list of the
input; all comparisons the Rust code makes are on ASCII bytes, which agree
with the characters on the relevant prefixes. -/
def bytesFromStr (s : String) : Except String Nat :=
  if s = "0" then Except.ok 0 else
  let cs := s.data
  let digits := (cs.takeWhile Char.isDigit).length
  if digits = 0 then Except.error "missing number" else
  let number := decimalValue (cs.take digits)
  if 18446744073709551616 ≤ number then Except.error "overflow" else
  let rest := (cs.drop digits).dropWhile (fun c => c = ' ')
  if rest.isEmpty then Except.error "missing unit" else
  match unitShift (String.mk rest) with
  | none => Except.error "unrecognized unit"
  | some shift =>
      if (number <<< shift) % 18446744073709551616 ≠ rotateLeft64 number shift then
        Except.error "overflow"
      else Except.ok ((number <<< shift) % 18446744073709551616)

/-! ## Shared data model (src/shared.rs)

`PrintablePath` is modelled by its printable rendering (a `String`): the
claims below use paths only as map keys and in log lines.  `PrintableTime`
is modelled by its 19-character rendering; only its equality matters here.
`u64`/`usize` fields are `Nat` (byte counts stay far below `2 ^ 64` in every
statement below, so no wraparound is reachable in them). -/

structure UnreadFile where
  path : String
  modified : String
  size : Nat
deriving DecidableEq, Repr

/-- `FilePart`: a fully-initialized buffer with the number of valid bytes,
or an I/O error (modelled by its rendering). -/
inductive FilePart where
  | Chunk (buffer : List Nat) (length : Nat)
  | Error (e : String)
deriving DecidableEq, Repr

structure HashedFile where
  path : String
  modified : String
  apparent_size : Nat
  read_size : Nat
  hash : List Nat
deriving DecidableEq, Repr

/-! ## The hasher worker (src/hash.rs)

`sha2::Sha256` incremental state is the byte list absorbed since the last
reset; `finalize_reset` yields `sha256` of it.  `hash_file` is embedded as a
function from the file's chunk stream (the list of `FilePart`s received
before the channel closed) to the emitted record, the log lines produced,
and the hasher state left behind. -/

structure HashFileOutput where
  /-- The record sent on `hashed_tx`, `none` when the file was abandoned. -/
  record : Option HashedFile
  /-- Messages given to `thread_info.log_message`, in order. -/
  logs : List String
  /-- The hasher state after the call (reset on both exits). -/
  hasher : List Nat
deriving DecidableEq, Repr

/-- `"{} got IO error after {} of {} bytes: {}"` with the path, the running
byte counter, the apparent size and the error. -/
def ioErrorMsg (file : UnreadFile) (position : Nat) (e : String) : String :=
  file.path ++ " got IO error after " ++ String.mk (natToDecimal position)
    ++ " of " ++ String.mk (natToDecimal file.size) ++ " bytes: " ++ e

/-- `"{} has apparent size {:?} ({}) but {:?} was read"` with the path,
`Bytes(size)` debug form, `Bytes(size)` display form and `Bytes(position)`
debug form. -/
def sizeMismatchMsg (file : UnreadFile) (position : Nat) : String :=
  file.path ++ " has apparent size Bytes(" ++ String.mk (natToDecimal file.size)
    ++ ") (" ++ bytesDisplay file.size ++ ") but Bytes("
    ++ String.mk (natToDecimal position) ++ ") was read"

/-- The `for part in parts` loop of `hash_file` together with the
finalization after it: `hasher` is the absorbed-byte state, `position` the
running byte counter, `logs` the messages already logged. -/
def hashFileGo (file : UnreadFile) (hasher : List Nat) (position : Nat)
    (logs : List String) : List FilePart → HashFileOutput
  | [] =>
      { record := some { path := file.path, modified := file.modified,
                         apparent_size := file.size, read_size := position,
                         hash := sha256 hasher },
        logs := if position ≠ file.size then logs ++ [sizeMismatchMsg file position] else logs,
        hasher := [] }
  | FilePart.Chunk buffer length :: rest =>
      hashFileGo file (hasher ++ buffer.take length) (position + length) logs rest
  | FilePart.Error e :: _ =>
      { record := none, logs := logs ++ [ioErrorMsg file position e], hasher := [] }

/-- `hash_file`: the hasher starts this file with a freshly reset engine. -/
def hash_file (file : UnreadFile) (parts : List FilePart) : HashFileOutput :=
  hashFileGo file [] 0 [] parts

/-- Whether a part is a `Chunk`. -/
def FilePart.isChunk : FilePart → Bool
  | FilePart.Chunk _ _ => true
  | FilePart.Error _ => false

/-- The bytes a part delivers to the hasher (`&buffer[..length]`). -/
def FilePart.data : FilePart → List Nat
  | FilePart.Chunk buffer length => buffer.take length
  | FilePart.Error _ => []

/-- Concatenation of the bytes delivered by a chunk stream. -/
def partsData (parts : List FilePart) : List Nat :=
  (parts.map FilePart.data).flatten

/-- Sum of the `length` fields of the chunks of a stream. -/
def partsLen (parts : List FilePart) : Nat :=
  (parts.map fun p => match p with
    | FilePart.Chunk _ length => length
    | FilePart.Error _ => 0).sum

/-! ## The reader worker (src/read.rs)

`read_file` interacts with the OS (`File::read`) and with the buffer pool
(`get_buffer`), both of which respond nondeterministically; the loop is
embedded as a relation over those responses.  `readStep pos len` is the
outcome of `file.read(&mut buffer)` at byte position `pos` into a buffer of
length `len`; a successful read returns at most `len` bytes and a read into
an empty buffer cannot return bytes. -/

/-- `AvailableBuffers::MIN_BUFFER_SIZE`. -/
def MIN_BUFFER_SIZE : Nat := 512

/-- Rust `usize::clamp` for `lo ≤ hi`. -/
def rustClamp (x lo hi : Nat) : Nat := min (max x lo) hi

/-- Result of one `file.read(&mut buffer)` call. -/
inductive ReadResult where
  | ok (n : Nat)
  | err (e : String)
deriving DecidableEq, Repr

/-- The length of the buffer `AvailableBuffers::get_buffer` hands out for a
request, from the code's four exits: a request of 0 bytes short-circuits to
`Box::default()` (length 0, bypassing the clamp); otherwise the request is
clamped to `[max MIN_BUFFER_SIZE (max_single/128), max_single]` and served
by a stored buffer of at least 90% of the clamped size, a stored buffer of
at most twice the clamped size, a fresh allocation of exactly the clamped
size, or a stored buffer grown to the clamped size. -/
def get_buffer_len_ok (max_single requested len : Nat) : Prop :=
  if requested = 0 then len = 0
  else 9 * rustClamp requested (max MIN_BUFFER_SIZE (max_single / 128)) max_single / 10 ≤ len

/-- The `while incomplete` loop of `read_file`, as a relation
`ReadFileLoop max_single readStep pos remaining bufLen parts`: entered at
byte position `pos` holding a buffer of length `bufLen`, with
`remaining_size = remaining`, the rest of the file's chunk stream is
`parts`.  A chunk's `length` cannot exceed the buffer's length, and reading
into an empty buffer cannot produce bytes (`0 < n → n ≤ bufLen`).  After a
chunk, `remaining_size` is updated by `checked_sub` (falling back to
`max_single` on underflow) and the next buffer comes from `get_buffer`. -/
inductive ReadFileLoop (max_single : Nat) (readStep : Nat → Nat → ReadResult) :
    Nat → Nat → Nat → List FilePart → Prop
  | eof {pos remaining bufLen} :
      readStep pos bufLen = ReadResult.ok 0 →
      ReadFileLoop max_single readStep pos remaining bufLen []
  | fail {pos remaining bufLen e} :
      readStep pos bufLen = ReadResult.err e →
      ReadFileLoop max_single readStep pos remaining bufLen [FilePart.Error e]
  | chunk {pos remaining bufLen n buffer nextLen rest} :
      readStep pos bufLen = ReadResult.ok n →
      0 < n → n ≤ bufLen → buffer.length = bufLen →
      get_buffer_len_ok max_single (if n ≤ remaining then remaining - n else max_single) nextLen →
      ReadFileLoop max_single readStep (pos + n)
        (if n ≤ remaining then remaining - n else max_single) nextLen rest →
      ReadFileLoop max_single readStep pos remaining bufLen (FilePart.Chunk buffer n :: rest)

/-- A complete `read_file` call for a file of apparent size `size` whose
chunk stream came out as `parts`: the initial `remaining_size` is
`usize::try_from(size)` (exact on 64-bit), the first buffer is requested at
that size, and then the loop runs.  On every path through the loop body the
`(file, rx)` pair is pushed onto the hash queue after the first read, so a
run of this relation always enqueues exactly one hash-queue item. -/
def read_file_parts (max_single : Nat) (readStep : Nat → Nat → ReadResult)
    (size : Nat) (bufLen0 : Nat) (parts : List FilePart) : Prop :=
  get_buffer_len_ok max_single size bufLen0 ∧
  ReadFileLoop max_single readStep 0 size bufLen0 parts

/-! ## The previously-read index (src/shared.rs, `PreviouslyRead`)

The `HashMap<Arc<PrintablePath>, (UnreadFile, AtomicBool)>` is modelled as
an association list keyed by the path; `insert` keys an entry by its file's
path with the flag cleared, exactly as the Rust `insert` does. -/

structure PrevEntry where
  file : UnreadFile
  /-- The `AtomicBool` named `still_exists` in `check_unchanged`. -/
  still_exists : Bool
deriving DecidableEq, Repr

/-- `PreviouslyRead::insert` (replaces any binding for the same path). -/
def prevInsert (pr : List (String × PrevEntry)) (file : UnreadFile) :
    List (String × PrevEntry) :=
  (file.path, { file := file, still_exists := false })
    :: pr.filter (fun kv => kv.1 ≠ file.path)

/-- Store `true` into the flag of the entry at `path`. -/
def setFlag (pr : List (String × PrevEntry)) (path : String) :
    List (String × PrevEntry) :=
  pr.map fun kv =>
    if kv.1 = path then (kv.1, { kv.2 with still_exists := true }) else kv

/-- `PreviouslyRead::check_unchanged`: on a path hit, store `true` into the
entry's flag (before any comparison), then answer whether the stored
`UnreadFile` equals the encountered one. -/
def check_unchanged (pr : List (String × PrevEntry)) (file : UnreadFile) :
    Bool × List (String × PrevEntry) :=
  match pr.lookup file.path with
  | some entry => (decide (entry.file = file), setFlag pr file.path)
  | none => (false, pr)

/-- `read_dir`'s handling of one regular-file entry: `continue` (skip) when
`check_unchanged` answers true, otherwise enqueue `ToRead::File`.  Returns
whether the file was enqueued, together with the updated index. -/
def readDirEntry (pr : List (String × PrevEntry)) (file : UnreadFile) :
    Bool × List (String × PrevEntry) :=
  let r := check_unchanged pr file
  (!r.1, r.2)

/-- `PreviouslyRead::get_not_found`: the paths whose flag is still unset;
`Sqlite::prune` deletes exactly these at shutdown. -/
def getNotFound (pr : List (String × PrevEntry)) : List String :=
  (pr.filter (fun kv => !kv.2.still_exists)).map (fun kv => kv.2.file.path)

/-! ## The buffer pool's release operation (src/available_buffers.rs)

The `BTreeMap<(u32, u32), Box<[u8]>>` is modelled as an association list in
strictly ascending key order.  `return_buffer` either drops the buffer,
panics (modelled as `none` — both panic paths are unreachable under the
well-formedness hypotheses used below), or inserts it under a fresh key and
notifies the starving waiters. -/

/-- Strict lexicographic order on `(u32, u32)` keys. -/
def keyLtb (a b : Nat × Nat) : Bool :=
  a.1 < b.1 || (a.1 = b.1 && a.2 < b.2)

/-- The map invariant: entries in strictly ascending key order. -/
def sortedMap (m : List ((Nat × Nat) × List Nat)) : Prop :=
  m.Pairwise fun a b => keyLtb a.1 b.1

/-- `map.range(..k).last()` on a sorted map: the greatest entry below `k`. -/
def lastBelow (m : List ((Nat × Nat) × List Nat)) (k : Nat × Nat) :
    Option ((Nat × Nat) × List Nat) :=
  (m.filter fun kv => keyLtb kv.1 k).getLast?

/-- Insertion keeping ascending key order. -/
def insertSorted (m : List ((Nat × Nat) × List Nat)) (k : Nat × Nat)
    (b : List Nat) : List ((Nat × Nat) × List Nat) :=
  match m with
  | [] => [(k, b)]
  | kv :: rest =>
      if keyLtb k kv.1 then (k, b) :: kv :: rest else kv :: insertSorted rest k b

structure AvailableBuffers where
  map : List ((Nat × Nat) × List Nat)
  current_buffers_size : Nat
  max_buffers_size : Nat
  max_single_buffer : Nat
deriving DecidableEq, Repr

/-- `AvailableBuffers::return_buffer`.  Returns `none` on either panic path
(`last_key_value` seeing an oversized buffer, or `insert` displacing an
existing entry), otherwise the updated pool and whether `starving` was
notified.  The dropped-buffer path leaves map and counter untouched — the
code has no `fetch_sub` there. -/
def return_buffer (p : AvailableBuffers) (buffer : List Nat) :
    Option (AvailableBuffers × Bool) :=
  if buffer.length < MIN_BUFFER_SIZE ∨ p.max_buffers_size < buffer.length then
    some (p, false)
  else
    let size := buffer.length % 4294967296
    let index : Option Nat :=
      if size = p.max_single_buffer then
        match p.map.getLast? with
        | some kv =>
            if kv.1.1 = size then some (kv.1.2 + 1)
            else if size < kv.1.1 then none
            else some 0
        | none => some 0
      else
        match lastBelow p.map (size + 1, 0) with
        | some kv => if kv.1.1 = size then some (kv.1.2 + 1) else some 0
        | none => some 0
    match index with
    | none => none
    | some idx =>
        if p.map.any (fun kv => kv.1 = (size, idx)) then none
        else some ({ p with map := insertSorted p.map (size, idx) buffer }, true)

/-! ## The persistent-index prefix scan (src/storage.rs)

Paths stored in the `hashed` table are raw byte strings (`Fin 256` lists);
SQLite compares BLOBs by `memcmp`, with a proper prefix sorting first, and
`BETWEEN ?1 AND ?2` is inclusive at both ends. -/

/-- SQLite BLOB comparison (`memcmp` order, shorter prefix first): `a ≤ b`. -/
def blobLe : List (Fin 256) → List (Fin 256) → Bool
  | [], _ => true
  | _ :: _, [] => false
  | a :: as, b :: bs => decide (a.val < b.val) || (decide (a.val = b.val) && blobLe as bs)

/-- The upper-bound computation of `get_previously_read` on the reversed
byte string: pop trailing `0xFF` bytes, then increment the last remaining
byte. -/
def successorRev : List (Fin 256) → List (Fin 256)
  | [] => []
  | b :: rest =>
      if h : b.val = 255 then successorRev rest
      else (⟨b.val + 1, by have := b.isLt; omega⟩ : Fin 256) :: rest

/-- The `after` bound built from `start` by the `for i in (0..len).rev()`
loop of `Sqlite::get_previously_read`. -/
def successor (l : List (Fin 256)) : List (Fin 256) :=
  (successorRev l.reverse).reverse

/-- One row of the `hashed` table as `get_previously_read` reads it. -/
structure StoredRow where
  path : List (Fin 256)
  modified : String
  apparent_size : Nat
deriving DecidableEq, Repr

/-- The rows `SELECT path, modified, apparent_size FROM hashed WHERE path
BETWEEN ?1 AND ?2` returns, with `?1 = start` and `?2 = successor start`;
`get_previously_read` inserts exactly these into the in-memory index. -/
def selectedRows (stored : List StoredRow) (start : List (Fin 256)) :
    List StoredRow :=
  stored.filter fun r => blobLe start r.path && blobLe r.path (successor start)

/-! ## Facts about the hasher worker -/

/-- On an all-chunk stream, `hash_file`'s loop absorbs exactly the chunk
bytes and finalizes into a record. -/
theorem hashFileGo_chunks (file : UnreadFile) (parts : List FilePart) :
    ∀ (hasher : List Nat) (pos : Nat) (logs : List String),
    (∀ p ∈ parts, p.isChunk = true) →
    hashFileGo file hasher pos logs parts =
      { record := some { path := file.path, modified := file.modified,
                         apparent_size := file.size,
                         read_size := pos + partsLen parts,
                         hash := sha256 (hasher ++ partsData parts) },
        logs := if pos + partsLen parts ≠ file.size
                then logs ++ [sizeMismatchMsg file (pos + partsLen parts)] else logs,
        hasher := [] } := by
  induction parts with
  | nil =>
      intro hasher pos logs _
      simp [hashFileGo, partsLen, partsData]
  | cons p rest ih =>
      intro hasher pos logs hall
      cases p with
      | Chunk buffer length =>
          have hrest : ∀ q ∈ rest, q.isChunk = true := fun q hq => hall q (by simp [hq])
          simp only [hashFileGo]
          rw [ih (hasher ++ buffer.take length) (pos + length) logs hrest]
          simp [partsLen, partsData, FilePart.data, List.append_assoc, Nat.add_assoc]
      | Error e =>
          have := hall (FilePart.Error e) (by simp)
          simp [FilePart.isChunk] at this

/-- The loop aborts at the first `Error` part, logging the I/O-error line
with the bytes counted so far, resetting the engine, and producing no
record. -/
theorem hashFileGo_error (file : UnreadFile) (pre : List FilePart) :
    ∀ (e : String) (rest : List FilePart) (hasher : List Nat) (pos : Nat)
      (logs : List String),
    (∀ p ∈ pre, p.isChunk = true) →
    hashFileGo file hasher pos logs (pre ++ FilePart.Error e :: rest) =
      { record := none, logs := logs ++ [ioErrorMsg file (pos + partsLen pre) e],
        hasher := [] } := by
  induction pre with
  | nil =>
      intro e rest hasher pos logs _
      simp [hashFileGo, partsLen]
  | cons p pre' ih =>
      intro e rest hasher pos logs hall
      cases p with
      | Chunk buffer length =>
          have hpre : ∀ q ∈ pre', q.isChunk = true := fun q hq => hall q (by simp [hq])
          simp only [List.cons_append, hashFileGo, List.append_eq]
          rw [ih e rest (hasher ++ buffer.take length) (pos + length) logs hpre]
          simp [partsLen, Nat.add_assoc]
      | Error e' =>
          have := hall (FilePart.Error e') (by simp)
          simp [FilePart.isChunk] at this

/-- A stream containing an `Error` part yields no record. -/
theorem hashFileGo_none (file : UnreadFile) (parts : List FilePart) :
    ∀ (hasher : List Nat) (pos : Nat) (logs : List String),
    ¬ (∀ p ∈ parts, p.isChunk = true) →
    (hashFileGo file hasher pos logs parts).record = none := by
  induction parts with
  | nil => intro _ _ _ h; exact absurd (by simp) h
  | cons p rest ih =>
      intro hasher pos logs h
      cases p with
      | Chunk buffer length =>
          have : ¬ (∀ q ∈ rest, q.isChunk = true) := by
            intro hrest
            exact h (by
              intro q hq
              rcases List.mem_cons.mp hq with rfl | hq'
              · simp [FilePart.isChunk]
              · exact hrest q hq')
          simpa [hashFileGo] using ih (hasher ++ buffer.take length) (pos + length) logs this
      | Error e => simp [hashFileGo]

/-- C1: for every file processed by the pipeline, the digest in the emitted
`HashedRecord` equals SHA-256 of the concatenation of the bytes delivered in
that file's `Data` chunks, independent of how those bytes are split into
chunks.  Each file's chunks travel in order over a dedicated
single-producer/single-consumer channel to a single hasher, so worker
counts and interleaving can only vary which chunk list a file's stream
comes out as; the theorem quantifies over all chunkings of the same bytes —
in particular the chunkings produced by two scans with different
`max_buffer_size` settings — and both runs yield the same 32-byte digest. -/
theorem digest_determined_by_bytes
    (file1 file2 : UnreadFile) (parts1 parts2 : List FilePart) (data : List Nat)
    (h1 : ∀ p ∈ parts1, p.isChunk = true) (h2 : ∀ p ∈ parts2, p.isChunk = true)
    (hd1 : partsData parts1 = data) (hd2 : partsData parts2 = data) :
    ∃ r1 r2 : HashedFile,
      (hash_file file1 parts1).record = some r1 ∧
      (hash_file file2 parts2).record = some r2 ∧
      r1.hash = sha256 data ∧ r2.hash = sha256 data := by
  unfold hash_file
  rw [hashFileGo_chunks file1 parts1 [] 0 [] h1, hashFileGo_chunks file2 parts2 [] 0 [] h2]
  exact ⟨_, _, rfl, rfl, by simp [hd1], by simp [hd2]⟩

/-- Witness for C1: the bytes `[1, 2, 3]` split as one chunk and as two. -/
theorem digest_determined_by_bytes_witness :
    (∀ p ∈ [FilePart.Chunk [1, 2, 3] 3], p.isChunk = true) ∧
    (∀ p ∈ [FilePart.Chunk [1] 1, FilePart.Chunk [2, 3] 2], p.isChunk = true) ∧
    ∃ r1 r2 : HashedFile,
      (hash_file ⟨"a", "2023-01-01 00:00:00", 3⟩ [FilePart.Chunk [1, 2, 3] 3]).record = some r1 ∧
      (hash_file ⟨"b", "2023-01-01 00:00:00", 3⟩
        [FilePart.Chunk [1] 1, FilePart.Chunk [2, 3] 2]).record = some r2 ∧
      r1.hash = sha256 [1, 2, 3] ∧ r2.hash = sha256 [1, 2, 3] :=
  ⟨by decide, by decide,
   digest_determined_by_bytes ⟨"a", "2023-01-01 00:00:00", 3⟩ ⟨"b", "2023-01-01 00:00:00", 3⟩
     [FilePart.Chunk [1, 2, 3] 3] [FilePart.Chunk [1] 1, FilePart.Chunk [2, 3] 2]
     [1, 2, 3] (by decide) (by decide) (by decide) (by decide)⟩

/-- C2: a `HashedRecord` is emitted iff the file's chunk stream ended
without an `IoError` chunk; on an `IoError` after chunks totalling `k`
data bytes, the hasher resets its engine, logs exactly
`"<path> got IO error after <k> of <apparent_size> bytes: <error>"`, and
produces no record.  (`hash_files` then loops on to the next queued file,
so the rest of the scan continues.) -/
theorem record_iff_clean_stream (file : UnreadFile) (parts : List FilePart) :
    ((hash_file file parts).record.isSome ↔ ∀ p ∈ parts, p.isChunk = true) ∧
    (∀ (pre : List FilePart) (e : String) (rest : List FilePart),
      parts = pre ++ FilePart.Error e :: rest →
      (∀ p ∈ pre, p.isChunk = true) →
      (hash_file file parts).record = none ∧
      (hash_file file parts).logs = [ioErrorMsg file (partsLen pre) e] ∧
      (hash_file file parts).hasher = []) := by
  constructor
  · constructor
    · intro hsome
      by_contra h
      rw [show (hash_file file parts).record = none from
            hashFileGo_none file parts [] 0 [] h] at hsome
      simp at hsome
    · intro hall
      unfold hash_file
      rw [hashFileGo_chunks file parts [] 0 [] hall]
      simp
  · intro pre e rest hparts hpre
    subst hparts
    unfold hash_file
    rw [hashFileGo_error file pre e rest [] 0 [] hpre]
    simp

/-- Witness for C2: a two-byte chunk followed by an I/O error yields no
record and the exact log line. -/
theorem record_iff_clean_stream_witness :
    (hash_file ⟨"f", "2023-01-01 00:00:00", 10⟩
        [FilePart.Chunk [7, 8] 2, FilePart.Error "oops"]).record = none ∧
    (hash_file ⟨"f", "2023-01-01 00:00:00", 10⟩
        [FilePart.Chunk [7, 8] 2, FilePart.Error "oops"]).logs =
      [ioErrorMsg ⟨"f", "2023-01-01 00:00:00", 10⟩ (partsLen [FilePart.Chunk [7, 8] 2]) "oops"] ∧
    (hash_file ⟨"f", "2023-01-01 00:00:00", 10⟩
        [FilePart.Chunk [7, 8] 2, FilePart.Error "oops"]).hasher = [] :=
  (record_iff_clean_stream ⟨"f", "2023-01-01 00:00:00", 10⟩
      [FilePart.Chunk [7, 8] 2, FilePart.Error "oops"]).2
    [FilePart.Chunk [7, 8] 2] "oops" [] rfl (by decide)

/-! ## Facts about zero-sized files -/

/-- For a 0-size file every run of the reader loop emits no chunk: the
initial buffer request of 0 bytes yields a zero-length buffer, and a read
into an empty buffer returns 0 bytes. -/
theorem readFileLoop_zero (max_single : Nat) (readStep : Nat → Nat → ReadResult)
    (bufLen0 : Nat) (parts : List FilePart)
    (hempty : ∀ pos, readStep pos 0 = ReadResult.ok 0)
    (hrun : read_file_parts max_single readStep 0 bufLen0 parts) :
    bufLen0 = 0 ∧ parts = [] := by
  obtain ⟨hb, hloop⟩ := hrun
  simp [get_buffer_len_ok] at hb
  subst hb
  refine ⟨rfl, ?_⟩
  cases hloop with
  | eof _ => rfl
  | fail h => simp [hempty 0] at h
  | chunk h hn hle _ _ _ => omega

/-- C3: a 0-byte regular file goes through the pipeline as a chunk stream
with no `Data` chunk at all (the reader requests a 0-byte buffer, the first
read returns 0 and is EOF), and the hasher still emits exactly one record
for it, with `read_size = 0`, `apparent_size = 0`, the SHA-256 digest of
the empty string, and no log line. -/
theorem empty_file_record (file : UnreadFile) (max_single : Nat)
    (readStep : Nat → Nat → ReadResult) (bufLen0 : Nat) (parts : List FilePart)
    (hsize : file.size = 0)
    (hempty : ∀ pos, readStep pos 0 = ReadResult.ok 0)
    (hrun : read_file_parts max_single readStep file.size bufLen0 parts) :
    parts = [] ∧
    hash_file file parts =
      { record := some { path := file.path, modified := file.modified,
                         apparent_size := 0, read_size := 0, hash := emptySha256 },
        logs := [], hasher := [] } := by
  rw [hsize] at hrun
  obtain ⟨-, hparts⟩ := readFileLoop_zero max_single readStep bufLen0 parts hempty hrun
  subst hparts
  refine ⟨rfl, ?_⟩
  simp [hash_file, hashFileGo, hsize, show sha256 [] = emptySha256 from by decide]

/-- Witness for C3: the file `empty.bin` of size 0, with an EOF-only read
oracle. -/
theorem empty_file_record_witness :
    ([] : List FilePart) = [] ∧
    hash_file ⟨"empty.bin", "2023-01-01 00:00:00", 0⟩ [] =
      { record := some { path := "empty.bin", modified := "2023-01-01 00:00:00",
                         apparent_size := 0, read_size := 0, hash := emptySha256 },
        logs := [], hasher := [] } :=
  empty_file_record ⟨"empty.bin", "2023-01-01 00:00:00", 0⟩ 1048576
    (fun _ _ => ReadResult.ok 0) 0 [] rfl (fun _ => rfl)
    ⟨by simp [get_buffer_len_ok], ReadFileLoop.eof rfl⟩

/-- C9: when the `FileDescriptorRecord` carries apparent size 0, the
reader's buffer request of 0 bytes returns a zero-capacity buffer — below
`MIN_BUFFER_SIZE`, bypassing the pool's minimum-size clamp — so the first
read returns 0 and is treated as EOF.  Whatever the file contains at read
time (the read oracle is arbitrary on non-empty buffers, covering a file
that has grown), the record carries `read_size = 0` and the empty-string
SHA-256 digest, and no size-changed message is logged. -/
theorem zero_size_file_bypasses_clamp (file : UnreadFile) (max_single : Nat)
    (readStep : Nat → Nat → ReadResult) (bufLen0 : Nat) (parts : List FilePart)
    (hsize : file.size = 0)
    (hempty : ∀ pos, readStep pos 0 = ReadResult.ok 0)
    (hrun : read_file_parts max_single readStep file.size bufLen0 parts) :
    bufLen0 = 0 ∧ bufLen0 < MIN_BUFFER_SIZE ∧ parts = [] ∧
    (hash_file file parts).record =
      some { path := file.path, modified := file.modified,
             apparent_size := 0, read_size := 0, hash := emptySha256 } ∧
    (hash_file file parts).logs = [] := by
  rw [hsize] at hrun
  obtain ⟨hb, hparts⟩ := readFileLoop_zero max_single readStep bufLen0 parts hempty hrun
  obtain ⟨-, hrec⟩ := empty_file_record file max_single readStep bufLen0 parts hsize hempty
    (hsize ▸ hrun)
  subst hparts
  refine ⟨hb, by rw [hb]; decide, rfl, ?_, ?_⟩
  · rw [hrec]
  · rw [hrec]

/-- Witness for C9: a size-0 descriptor over a file that does contain a
byte at read time. -/
theorem zero_size_file_bypasses_clamp_witness :
    (0 : Nat) = 0 ∧ (0 : Nat) < MIN_BUFFER_SIZE ∧ ([] : List FilePart) = [] ∧
    (hash_file ⟨"grown.bin", "2023-01-01 00:00:00", 0⟩ []).record =
      some { path := "grown.bin", modified := "2023-01-01 00:00:00",
             apparent_size := 0, read_size := 0, hash := emptySha256 } ∧
    (hash_file ⟨"grown.bin", "2023-01-01 00:00:00", 0⟩ []).logs = [] :=
  zero_size_file_bypasses_clamp ⟨"grown.bin", "2023-01-01 00:00:00", 0⟩ 1048576
    (fun _ len => if len = 0 then ReadResult.ok 0 else ReadResult.ok 1) 0 [] rfl
    (fun _ => rfl)
    ⟨by simp [get_buffer_len_ok], ReadFileLoop.eof rfl⟩

/-! ## Facts about the previously-read index -/

/-- `setFlag` turns the looked-up entry's flag on and touches nothing else
about it. -/
theorem lookup_setFlag (pr : List (String × PrevEntry)) (p : String) (e : PrevEntry)
    (h : pr.lookup p = some e) :
    (setFlag pr p).lookup p = some { e with still_exists := true } := by
  induction pr with
  | nil => simp [List.lookup] at h
  | cons kv rest ih =>
      obtain ⟨k, v⟩ := kv
      cases hbeq : p == k with
      | true =>
          have hk : p = k := beq_iff_eq.mp hbeq
          subst hk
          have hv : v = e := by simpa [List.lookup] using h
          subst hv
          have hsf : setFlag ((p, v) :: rest) p
              = (p, { file := v.file, still_exists := true }) :: setFlag rest p := by
            unfold setFlag
            rw [List.map_cons]
            congr 1
            exact if_pos rfl
          rw [hsf]
          simp [List.lookup]
      | false =>
          have hne : ¬ k = p := by
            intro hh
            subst hh
            simp at hbeq
          simp only [List.lookup, hbeq] at h
          simp only [setFlag, List.map_cons, if_neg hne]
          rw [List.lookup, hbeq]
          simpa [setFlag] using ih h

/-- Counterexample to C4 as stated: a path present in the index with a
*different* `modified` is enqueued for reading (first conjunct), yet its
"seen" flag is stored anyway — `check_unchanged` sets the flag before
comparing — so the entry is *not* in the prune set at shutdown (second
conjunct), contradicting "leaves its flag unset, so it is pruned". -/
theorem changed_file_flag_still_set :
    (readDirEntry [("a", ⟨⟨"a", "2023-01-01 00:00:00", 1⟩, false⟩)]
        ⟨"a", "2024-02-02 00:00:00", 1⟩).1 = true ∧
    getNotFound (readDirEntry [("a", ⟨⟨"a", "2023-01-01 00:00:00", 1⟩, false⟩)]
        ⟨"a", "2024-02-02 00:00:00", 1⟩).2 = [] := by decide

/-- C4, amended: a regular-file entry is skipped iff the previously-read
index holds a record for its path whose stored `UnreadFile` equals the
encountered one — with matching path, exactly identical `(modified, size)`
— but the record's "seen" flag is stored `true` whenever the path is
present, matching or not; an entry whose `(modified, size)` differ is
enqueued *with* its flag set, so it is not pruned at shutdown.  A path
absent from the index is enqueued and the index is untouched. -/
theorem readDirEntry_spec (pr : List (String × PrevEntry)) (file : UnreadFile) :
    (∀ entry : PrevEntry, pr.lookup file.path = some entry →
      ((readDirEntry pr file).1 = false ↔ entry.file = file) ∧
      (entry.file.path = file.path →
        ((readDirEntry pr file).1 = false ↔
          entry.file.modified = file.modified ∧ entry.file.size = file.size)) ∧
      (readDirEntry pr file).2 = setFlag pr file.path ∧
      ((readDirEntry pr file).2).lookup file.path =
        some { entry with still_exists := true }) ∧
    (pr.lookup file.path = none →
      (readDirEntry pr file).1 = true ∧ (readDirEntry pr file).2 = pr) := by
  constructor
  · intro entry hlook
    have h2 : readDirEntry pr file =
        (!(decide (entry.file = file)), setFlag pr file.path) := by
      simp [readDirEntry, check_unchanged, hlook]
    refine ⟨?_, ?_, ?_, ?_⟩
    · rw [h2]; simp
    · intro hpath
      rw [h2]
      obtain ⟨fp, fm, fs⟩ := file
      obtain ⟨⟨ep, em, es⟩, flag⟩ := entry
      simp only at hpath
      simp [UnreadFile.mk.injEq, hpath]
    · rw [h2]
    · rw [h2]
      exact lookup_setFlag pr file.path entry hlook
  · intro hlook
    simp [readDirEntry, check_unchanged, hlook]

/-- Witness for the amended C4: a concrete index with the path present but
an older `modified`. -/
theorem readDirEntry_spec_witness :
    ((readDirEntry [("a", ⟨⟨"a", "2023-01-01 00:00:00", 1⟩, false⟩)]
        ⟨"a", "2024-02-02 00:00:00", 1⟩).1 = false ↔
      (⟨⟨"a", "2023-01-01 00:00:00", 1⟩, false⟩ : PrevEntry).file =
        ⟨"a", "2024-02-02 00:00:00", 1⟩) ∧
    ((⟨⟨"a", "2023-01-01 00:00:00", 1⟩, false⟩ : PrevEntry).file.path = "a" →
      ((readDirEntry [("a", ⟨⟨"a", "2023-01-01 00:00:00", 1⟩, false⟩)]
          ⟨"a", "2024-02-02 00:00:00", 1⟩).1 = false ↔
        (⟨⟨"a", "2023-01-01 00:00:00", 1⟩, false⟩ : PrevEntry).file.modified =
          "2024-02-02 00:00:00" ∧
        (⟨⟨"a", "2023-01-01 00:00:00", 1⟩, false⟩ : PrevEntry).file.size = 1)) ∧
    (readDirEntry [("a", ⟨⟨"a", "2023-01-01 00:00:00", 1⟩, false⟩)]
        ⟨"a", "2024-02-02 00:00:00", 1⟩).2 =
      setFlag [("a", ⟨⟨"a", "2023-01-01 00:00:00", 1⟩, false⟩)] "a" ∧
    ((readDirEntry [("a", ⟨⟨"a", "2023-01-01 00:00:00", 1⟩, false⟩)]
        ⟨"a", "2024-02-02 00:00:00", 1⟩).2).lookup "a" =
      some { (⟨⟨"a", "2023-01-01 00:00:00", 1⟩, false⟩ : PrevEntry) with
             still_exists := true } :=
  (readDirEntry_spec [("a", ⟨⟨"a", "2023-01-01 00:00:00", 1⟩, false⟩)]
      ⟨"a", "2024-02-02 00:00:00", 1⟩).1
    ⟨⟨"a", "2023-01-01 00:00:00", 1⟩, false⟩ (by decide)

/-! ## Facts about the buffer pool's release operation -/

theorem mem_of_getLast? {α : Type} :
    ∀ {l : List α} {a : α}, l.getLast? = some a → a ∈ l := by
  intro l
  induction l with
  | nil => intro a h; simp at h
  | cons x t ih =>
      intro a h
      cases t with
      | nil =>
          simp at h
          simp [h]
      | cons y t' =>
          rw [List.getLast?_cons_cons] at h
          exact List.mem_cons_of_mem x (ih h)

theorem getLast?_ne_none_of_mem {α : Type} :
    ∀ {l : List α} {x : α}, x ∈ l → l.getLast? ≠ none := by
  intro l
  induction l with
  | nil => intro x hx; simp at hx
  | cons a t ih =>
      intro x _ h
      cases t with
      | nil => simp at h
      | cons b t' =>
          rw [List.getLast?_cons_cons] at h
          exact ih (List.mem_cons_self b t') h

/-- In a `Pairwise R` list, every element is the last one or relates to it. -/
theorem rel_getLast?_of_pairwise {α : Type} {R : α → α → Prop} :
    ∀ {l : List α}, l.Pairwise R → ∀ {x last : α}, x ∈ l → l.getLast? = some last →
      x = last ∨ R x last := by
  intro l
  induction l with
  | nil => intro _ x last hx _; simp at hx
  | cons a t ih =>
      intro hp x last hx hl
      cases t with
      | nil =>
          simp at hl hx
          subst hl hx
          exact Or.inl rfl
      | cons b t' =>
          rw [List.getLast?_cons_cons] at hl
          have hlast : last ∈ b :: t' := mem_of_getLast? hl
          rcases List.mem_cons.mp hx with rfl | hx'
          · exact Or.inr ((List.pairwise_cons.mp hp).1 last hlast)
          · exact ih (List.pairwise_cons.mp hp).2 hx' hl

/-- The tie-breaker computed from the greatest candidate key at `size` is
fresh: no stored key equals `(size, idx)`. -/
theorem fresh_idx_of_cand {m cand : List ((Nat × Nat) × List Nat)} (size idx : Nat)
    (hsub : cand.Sublist m)
    (hsorted : sortedMap m)
    (hcand_mem : ∀ kv ∈ m, kv.1.1 = size → kv ∈ cand)
    (hcand_le : ∀ kv ∈ cand, kv.1.1 ≤ size)
    (hidx : (match cand.getLast? with
             | some kv0 => if kv0.1.1 = size then kv0.1.2 + 1 else 0
             | none => 0) = idx) :
    (size, idx) ∉ m.map Prod.fst := by
  intro hmem
  obtain ⟨kv, hkvm, hfst⟩ := List.mem_map.mp hmem
  have hkvc : kv ∈ cand := hcand_mem kv hkvm (by rw [hfst])
  have hcs : cand.Pairwise (fun a b => keyLtb a.1 b.1) := hsorted.sublist hsub
  cases hl : cand.getLast? with
  | none => exact getLast?_ne_none_of_mem hkvc hl
  | some kv0 =>
      have hidx2 : (if kv0.1.1 = size then kv0.1.2 + 1 else 0) = idx := by
        rw [hl] at hidx
        exact hidx
      have hkv0c : kv0 ∈ cand := mem_of_getLast? hl
      have hkv0le : kv0.1.1 ≤ size := hcand_le kv0 hkv0c
      have hrel := rel_getLast?_of_pairwise hcs hkvc hl
      by_cases hc : kv0.1.1 = size
      · rw [if_pos hc] at hidx2
        rcases hrel with rfl | hlt
        · have h1 : kv.1.2 = idx := by rw [hfst]
          omega
        · rw [hfst] at hlt
          simp only [keyLtb, Bool.or_eq_true, Bool.and_eq_true, decide_eq_true_eq] at hlt
          omega
      · rw [if_neg hc] at hidx2
        rcases hrel with rfl | hlt
        · exact hc (by rw [hfst])
        · rw [hfst] at hlt
          simp only [keyLtb, Bool.or_eq_true, Bool.and_eq_true, decide_eq_true_eq] at hlt
          omega

theorem mem_insertSorted {k : Nat × Nat} {b : List Nat} :
    ∀ {m : List ((Nat × Nat) × List Nat)} {a}, a ∈ m → a ∈ insertSorted m k b := by
  intro m
  induction m with
  | nil => intro a ha; simp at ha
  | cons kv rest ih =>
      intro a ha
      by_cases h : keyLtb k kv.1 = true
      · simp only [insertSorted, if_pos h]
        exact List.mem_cons_of_mem _ ha
      · simp only [insertSorted, if_neg h]
        rcases List.mem_cons.mp ha with rfl | ha'
        · exact List.mem_cons_self _ _
        · exact List.mem_cons_of_mem _ (ih ha')

theorem self_mem_insertSorted {k : Nat × Nat} {b : List Nat} :
    ∀ {m : List ((Nat × Nat) × List Nat)}, (k, b) ∈ insertSorted m k b := by
  intro m
  induction m with
  | nil => simp [insertSorted]
  | cons kv rest ih =>
      by_cases h : keyLtb k kv.1 = true
      · simp only [insertSorted, if_pos h]
        exact List.mem_cons_self _ _
      · simp only [insertSorted, if_neg h]
        exact List.mem_cons_of_mem _ ih

set_option maxRecDepth 8192 in
/-- Counterexample to C5 as stated: with `max_single_buffer = 512` and
`max_buffers_size = 1024`, a 600-byte buffer is *above* `max_single_buffer`,
so the claim says it is silently dropped and the counter decremented by
600; the code instead compares against `max_buffers_size`, inserts the
buffer into the map (counter untouched at 600), and notifies waiters. -/
theorem oversized_buffer_not_dropped :
    return_buffer ⟨[], 600, 1024, 512⟩ (List.replicate 600 0) =
      some (⟨[((600, 0), List.replicate 600 0)], 600, 1024, 512⟩, true) := by decide

/-- C5, amended: a buffer whose length is below `MIN_BUFFER_SIZE` (512) or
above `max_buffers_size` (the *global* budget, not `max_single_buffer`) is
silently dropped with `current_buffers_size` left untouched (no decrement
happens on this path); any other buffer is inserted into the size-indexed
multimap under a fresh tie-breaker index — so no stored buffer is discarded
or replaced — and the starving waiters are notified.  Well-formedness
hypotheses: the map is sorted by key, stores only sizes up to
`max_single_buffer` (what `get_buffer` hands out), and the buffer's length
fits in a `u32`. -/
theorem return_buffer_spec (p : AvailableBuffers) (buffer : List Nat)
    (hsorted : sortedMap p.map)
    (hsizes : ∀ kv ∈ p.map, kv.1.1 ≤ p.max_single_buffer)
    (hlen : buffer.length < 4294967296) :
    (buffer.length < MIN_BUFFER_SIZE ∨ p.max_buffers_size < buffer.length →
      return_buffer p buffer = some (p, false)) ∧
    (MIN_BUFFER_SIZE ≤ buffer.length → buffer.length ≤ p.max_buffers_size →
      ∃ idx,
        (buffer.length, idx) ∉ p.map.map Prod.fst ∧
        return_buffer p buffer =
          some ({ p with map := insertSorted p.map (buffer.length, idx) buffer }, true) ∧
        (∀ kv ∈ p.map, kv ∈ insertSorted p.map (buffer.length, idx) buffer) ∧
        ((buffer.length, idx), buffer) ∈ insertSorted p.map (buffer.length, idx) buffer) := by
  have hmod : buffer.length % 4294967296 = buffer.length := Nat.mod_eq_of_lt hlen
  constructor
  · intro h
    unfold return_buffer
    rw [if_pos h]
  · intro h1 h2
    have hcond : ¬ (buffer.length < MIN_BUFFER_SIZE ∨ p.max_buffers_size < buffer.length) := by
      omega
    by_cases hmax : buffer.length = p.max_single_buffer
    · -- at the single-buffer limit: tie-breaker from the last key overall
      refine ⟨(match p.map.getLast? with
               | some kv0 => if kv0.1.1 = buffer.length then kv0.1.2 + 1 else 0
               | none => 0), ?_, ?_, fun kv hkv => mem_insertSorted hkv, self_mem_insertSorted⟩
      · exact fresh_idx_of_cand _ _ (List.Sublist.refl _) hsorted (fun kv hkv _ => hkv)
          (fun kv hkv => hmax ▸ hsizes kv hkv) rfl
      · have hfresh := fresh_idx_of_cand (m := p.map) buffer.length
          (match p.map.getLast? with
           | some kv0 => if kv0.1.1 = buffer.length then kv0.1.2 + 1 else 0
           | none => 0) (List.Sublist.refl _) hsorted (fun kv hkv _ => hkv)
          (fun kv hkv => hmax ▸ hsizes kv hkv) rfl
        have hany : (p.map.any fun kv =>
            decide (kv.1 = (buffer.length,
              match p.map.getLast? with
              | some kv0 => if kv0.1.1 = buffer.length then kv0.1.2 + 1 else 0
              | none => 0))) = false := by
          apply Bool.eq_false_iff.mpr
          intro hany
          obtain ⟨kv, hkv, hp⟩ := List.any_eq_true.mp hany
          exact hfresh (List.mem_map.mpr ⟨kv, hkv, of_decide_eq_true hp⟩)
        cases hl : p.map.getLast? with
        | none =>
            rw [hl] at hany
            unfold return_buffer
            rw [if_neg hcond]
            simp only [hmod, if_pos hmax, hl, hany]
            simp
        | some kv0 =>
            have hkv0le : kv0.1.1 ≤ p.max_single_buffer :=
              hsizes kv0 (mem_of_getLast? hl)
            have hnlt : ¬ (buffer.length < kv0.1.1) := by omega
            rw [hl] at hany
            unfold return_buffer
            rw [if_neg hcond]
            by_cases hc : kv0.1.1 = buffer.length
            · simp only [hmod, if_pos hmax, hl, if_pos hc] at hany ⊢
              simp only [hany]
              simp
            · simp only [hmod, if_pos hmax, hl, if_neg hc, if_neg hnlt] at hany ⊢
              simp only [hany]
              simp
    · -- below the limit: tie-breaker from the greatest key at most `size`
      have hc_mem : ∀ kv ∈ p.map, kv.1.1 = buffer.length →
          kv ∈ p.map.filter (fun kv => keyLtb kv.1 (buffer.length + 1, 0)) := by
        intro kv hkv hsz
        refine List.mem_filter.mpr ⟨hkv, ?_⟩
        simp only [keyLtb, Bool.or_eq_true, Bool.and_eq_true, decide_eq_true_eq]
        omega
      have hc_le : ∀ kv ∈ p.map.filter (fun kv => keyLtb kv.1 (buffer.length + 1, 0)),
          kv.1.1 ≤ buffer.length := by
        intro kv hkv
        have := (List.mem_filter.mp hkv).2
        simp only [keyLtb, Bool.or_eq_true, Bool.and_eq_true, decide_eq_true_eq] at this
        omega
      refine ⟨(match lastBelow p.map (buffer.length + 1, 0) with
               | some kv0 => if kv0.1.1 = buffer.length then kv0.1.2 + 1 else 0
               | none => 0), ?_, ?_, fun kv hkv => mem_insertSorted hkv, self_mem_insertSorted⟩
      · exact fresh_idx_of_cand _ _ (List.filter_sublist _) hsorted hc_mem hc_le rfl
      · have hfresh := fresh_idx_of_cand (m := p.map) buffer.length
          (match lastBelow p.map (buffer.length + 1, 0) with
           | some kv0 => if kv0.1.1 = buffer.length then kv0.1.2 + 1 else 0
           | none => 0) (List.filter_sublist _) hsorted hc_mem hc_le rfl
        have hany : (p.map.any fun kv =>
            decide (kv.1 = (buffer.length,
              match lastBelow p.map (buffer.length + 1, 0) with
              | some kv0 => if kv0.1.1 = buffer.length then kv0.1.2 + 1 else 0
              | none => 0))) = false := by
          apply Bool.eq_false_iff.mpr
          intro hany
          obtain ⟨kv, hkv, hp⟩ := List.any_eq_true.mp hany
          exact hfresh (List.mem_map.mpr ⟨kv, hkv, of_decide_eq_true hp⟩)
        cases hl : lastBelow p.map (buffer.length + 1, 0) with
        | none =>
            rw [hl] at hany
            unfold return_buffer
            rw [if_neg hcond]
            simp only [hmod, if_neg hmax, hl, hany]
            simp
        | some kv0 =>
            rw [hl] at hany
            unfold return_buffer
            rw [if_neg hcond]
            by_cases hc : kv0.1.1 = buffer.length
            · simp only [hmod, if_neg hmax, hl, if_pos hc] at hany ⊢
              simp only [hany]
              simp
            · simp only [hmod, if_neg hmax, hl, if_neg hc] at hany ⊢
              simp only [hany]
              simp

set_option maxRecDepth 8192 in
/-- Witness for the amended C5: a 512-byte buffer returned to an empty pool
with a 1 KiB budget is inserted under index (512, 0). -/
theorem return_buffer_spec_witness :
    ∃ idx,
      ((List.replicate 512 0).length, idx) ∉
        (⟨[], 512, 1024, 512⟩ : AvailableBuffers).map.map Prod.fst ∧
      return_buffer ⟨[], 512, 1024, 512⟩ (List.replicate 512 0) =
        some ({ (⟨[], 512, 1024, 512⟩ : AvailableBuffers) with
                map := insertSorted [] ((List.replicate 512 0).length, idx)
                         (List.replicate 512 0) }, true) ∧
      (∀ kv ∈ (⟨[], 512, 1024, 512⟩ : AvailableBuffers).map,
        kv ∈ insertSorted [] ((List.replicate 512 0).length, idx) (List.replicate 512 0)) ∧
      (((List.replicate 512 0).length, idx), List.replicate 512 0) ∈
        insertSorted [] ((List.replicate 512 0).length, idx) (List.replicate 512 0) :=
  (return_buffer_spec ⟨[], 512, 1024, 512⟩ (List.replicate 512 0)
      (by simp [sortedMap]) (by simp) (by simp)).2
    (by simp [MIN_BUFFER_SIZE]) (by simp)

/-! ## Facts about the persistent-index prefix scan -/

theorem blobLe_nil_right (l : List (Fin 256)) : blobLe l [] = true ↔ l = [] := by
  cases l with
  | nil => simp [blobLe]
  | cons a as => simp [blobLe]

/-- Comparing against an all-`0xFF` prefix: a path is at least
`replicate k 0xFF` exactly when it extends it (no byte exceeds `0xFF`). -/
theorem blobLe_replicate_iff (k : Nat) :
    ∀ ys : List (Fin 256),
      blobLe (List.replicate k (255 : Fin 256)) ys = true ↔
      List.replicate k (255 : Fin 256) <+: ys := by
  induction k with
  | zero => intro ys; simp [blobLe, List.replicate]
  | succ k ih =>
      intro ys
      cases ys with
      | nil => simp [List.replicate_succ, blobLe]
      | cons y ys' =>
          have hy := y.isLt
          simp only [List.replicate_succ, blobLe, Bool.or_eq_true, Bool.and_eq_true,
            decide_eq_true_eq, List.cons_prefix_cons, ih, Fin.ext_iff]
          constructor
          · rintro (h | ⟨h1, h2⟩)
            · omega
            · exact ⟨h1, h2⟩
          · rintro ⟨h1, h2⟩
            exact Or.inr ⟨h1, h2⟩

/-- The `BETWEEN start AND successor(start)` condition, on a `start` that
ends with a non-`0xFF` byte followed by `k` trailing `0xFF` bytes, holds
exactly for extensions of `start` and for the upper bound itself. -/
theorem blobLe_between_iff (pre : List (Fin 256)) (b c : Fin 256) (k : Nat)
    (hc : c.val = b.val + 1) :
    ∀ p : List (Fin 256),
      (blobLe (pre ++ b :: List.replicate k (255 : Fin 256)) p = true ∧
       blobLe p (pre ++ [c]) = true) ↔
      ((pre ++ b :: List.replicate k (255 : Fin 256)) <+: p ∨ p = pre ++ [c]) := by
  induction pre with
  | nil =>
      intro p
      cases p with
      | nil => simp [blobLe]
      | cons y ys =>
          have hy := y.isLt
          simp only [List.nil_append, blobLe, Bool.or_eq_true, Bool.and_eq_true,
            decide_eq_true_eq, List.cons_prefix_cons, blobLe_nil_right,
            blobLe_replicate_iff, List.cons.injEq, Fin.ext_iff]
          constructor
          · rintro ⟨h1 | ⟨h1, hrep⟩, h2 | ⟨h2, hys⟩⟩
            · omega
            · exact Or.inr ⟨h2, hys⟩
            · exact Or.inl ⟨by omega, hrep⟩
            · omega
          · rintro (⟨h1, hrep⟩ | ⟨h1, hys⟩)
            · exact ⟨Or.inr ⟨by omega, hrep⟩, Or.inl (by omega)⟩
            · exact ⟨Or.inl (by omega), Or.inr ⟨h1, hys⟩⟩
  | cons x pre' ih =>
      intro p
      cases p with
      | nil => simp [blobLe]
      | cons y ys =>
          by_cases hxy : x.val = y.val
          · have hfin : x = y := Fin.ext hxy
            subst hfin
            have e1 : blobLe ((x :: pre') ++ b :: List.replicate k (255 : Fin 256)) (x :: ys)
                = blobLe (pre' ++ b :: List.replicate k (255 : Fin 256)) ys := by
              simp [blobLe]
            have e2 : blobLe (x :: ys) ((x :: pre') ++ [c])
                = blobLe ys (pre' ++ [c]) := by
              simp [blobLe]
            rw [e1, e2]
            constructor
            · intro h
              rcases (ih ys).mp h with hpre | heq
              · exact Or.inl (by
                  rw [List.cons_append, List.cons_prefix_cons]
                  exact ⟨rfl, hpre⟩)
              · exact Or.inr (by rw [List.cons_append, heq])
            · intro h
              apply (ih ys).mpr
              rcases h with hpre | heq
              · rw [List.cons_append, List.cons_prefix_cons] at hpre
                exact Or.inl hpre.2
              · rw [List.cons_append, List.cons.injEq] at heq
                exact Or.inr heq.2
          · simp only [List.cons_append, blobLe, Bool.or_eq_true, Bool.and_eq_true,
              decide_eq_true_eq, List.cons_prefix_cons, List.cons.injEq, Fin.ext_iff]
            constructor
            · rintro ⟨h1 | ⟨h1, _⟩, h2 | ⟨h2, _⟩⟩ <;> omega
            · rintro (⟨h1, _⟩ | ⟨h1, _⟩)
              · exact absurd h1 hxy
              · exact absurd h1.symm hxy

/-- `successorRev` pops the leading `0xFF` run of the reversed path and
increments the byte after it. -/
theorem succRev_replicate (k : Nat) (b : Fin 256) (t : List (Fin 256))
    (hb : b.val ≠ 255) :
    successorRev (List.replicate k (255 : Fin 256) ++ b :: t) =
      (⟨b.val + 1, by have := b.isLt; omega⟩ : Fin 256) :: t := by
  induction k with
  | zero => simp [successorRev, hb]
  | succ k ih => simpa [List.replicate_succ, successorRev] using ih

/-- Any path with a non-`0xFF` byte splits as `pre ++ [b] ++ 0xFF…`, and its
computed upper bound is `pre ++ [b+1]` — trailing `0xFF` bytes dropped, the
last remaining byte incremented, as the claim describes. -/
theorem successor_decomp (l : List (Fin 256)) (hne : ∃ b ∈ l, b.val ≠ 255) :
    ∃ (pre : List (Fin 256)) (b c : Fin 256) (k : Nat),
      b.val ≠ 255 ∧ c.val = b.val + 1 ∧
      l = pre ++ b :: List.replicate k (255 : Fin 256) ∧
      successor l = pre ++ [c] := by
  obtain ⟨w, hwl, hw⟩ := hne
  have hwrev : w ∈ l.reverse := List.mem_reverse.mpr hwl
  set rev := l.reverse with hrev
  set t1 := rev.takeWhile (fun x => decide (x.val = 255)) with ht1
  set t2 := rev.dropWhile (fun x => decide (x.val = 255)) with ht2
  have hsplit : t1 ++ t2 = rev := by
    rw [ht1, ht2]
    exact List.takeWhile_append_dropWhile _ _
  have ht1all : ∀ x ∈ t1, x.val = 255 := by
    intro x hx
    have := List.mem_takeWhile_imp (ht1 ▸ hx)
    simpa using this
  have ht2ne : t2 ≠ [] := by
    intro hemp
    have : rev = t1 := by rw [← hsplit, hemp, List.append_nil]
    exact hw (ht1all w (this ▸ hwrev))
  obtain ⟨b, t3, hbt⟩ := List.exists_cons_of_ne_nil ht2ne
  have hbval : b.val ≠ 255 := by
    have hhead := List.head?_dropWhile_not (fun x => decide (x.val = 255)) rev
    rw [← ht2, hbt] at hhead
    simpa using hhead
  have ht1rep : t1 = List.replicate t1.length (255 : Fin 256) :=
    List.eq_replicate_iff.mpr ⟨rfl, fun x hx => Fin.ext (by simpa using ht1all x hx)⟩
  refine ⟨t3.reverse, b, ⟨b.val + 1, by have := b.isLt; omega⟩, t1.length, hbval, rfl, ?_, ?_⟩
  · conv_lhs => rw [← l.reverse_reverse]
    rw [← hrev, ← hsplit, hbt, ht1rep]
    simp [List.reverse_append, List.reverse_replicate]
  · unfold successor
    rw [← hrev, ← hsplit, hbt, ht1rep,
      succRev_replicate t1.length b t3 hbval]
    simp

/-- Counterexample to C8 as stated: SQLite's `BETWEEN` is inclusive at the
upper bound, so with root path `[0x61]` a stored row whose path is exactly
the computed successor `[0x62]` is also inserted, though it does not start
with the root's bytes.  (The claim's description of how the successor is
computed is accurate; its "exactly those records whose path starts with
root_path" is not.) -/
theorem between_includes_successor :
    selectedRows [⟨[(98 : Fin 256)], "2023-01-01 00:00:00", 0⟩] [(97 : Fin 256)] =
      [⟨[(98 : Fin 256)], "2023-01-01 00:00:00", 0⟩] ∧
    ¬ [(97 : Fin 256)] <+: [(98 : Fin 256)] := by
  constructor
  · decide
  · intro h
    obtain ⟨t, ht⟩ := h
    rw [List.cons_append] at ht
    have h97 : (97 : Fin 256) = 98 := ((List.cons.injEq _ _ _ _).mp ht).1
    exact absurd (congrArg Fin.val h97) (by decide)

/-- C8, amended: `get_previously_read(root_path, index)` inserts into the
in-memory previously-read index the stored records selected by
`path BETWEEN root AND successor(root)`, where the successor is computed
from the root's bytes by dropping trailing `0xFF` bytes and incrementing
the last remaining non-`0xFF` byte; since `BETWEEN` is inclusive at both
ends, the selected rows are exactly those whose path starts with the
root's bytes *plus* any row whose path equals the successor itself.
(Hypothesis: the root has a non-`0xFF` byte; for an all-`0xFF` or empty
root the computed range degenerates.) -/
theorem selectedRows_spec (stored : List StoredRow) (start : List (Fin 256))
    (hstart : ∃ b ∈ start, b.val ≠ 255) :
    ∀ r, r ∈ selectedRows stored start ↔
      r ∈ stored ∧ (start <+: r.path ∨ r.path = successor start) := by
  obtain ⟨pre, b, c, k, hb, hc, hl, hs⟩ := successor_decomp start hstart
  intro r
  rw [selectedRows, List.mem_filter, hs, hl, Bool.and_eq_true]
  constructor
  · rintro ⟨hmem, h1, h2⟩
    exact ⟨hmem, (blobLe_between_iff pre b c k hc r.path).mp ⟨h1, h2⟩⟩
  · rintro ⟨hmem, hrange⟩
    exact ⟨hmem, ((blobLe_between_iff pre b c k hc r.path).mpr hrange).1,
           ((blobLe_between_iff pre b c k hc r.path).mpr hrange).2⟩

/-- Witness for the amended C8: root `[0x61]`, a store holding an extension
of the root, the successor itself, and an unrelated path. -/
theorem selectedRows_spec_witness :
    (⟨[(97 : Fin 256), (0 : Fin 256)], "2023-01-01 00:00:00", 7⟩ : StoredRow) ∈
      selectedRows
        [⟨[(97 : Fin 256), (0 : Fin 256)], "2023-01-01 00:00:00", 7⟩,
         ⟨[(99 : Fin 256)], "2023-01-01 00:00:00", 8⟩]
        [(97 : Fin 256)] ↔
      (⟨[(97 : Fin 256), (0 : Fin 256)], "2023-01-01 00:00:00", 7⟩ : StoredRow) ∈
        [⟨[(97 : Fin 256), (0 : Fin 256)], "2023-01-01 00:00:00", 7⟩,
         ⟨[(99 : Fin 256)], "2023-01-01 00:00:00", 8⟩] ∧
      ([(97 : Fin 256)] <+: [(97 : Fin 256), (0 : Fin 256)] ∨
        [(97 : Fin 256), (0 : Fin 256)] = successor [(97 : Fin 256)]) :=
  selectedRows_spec
    [⟨[(97 : Fin 256), (0 : Fin 256)], "2023-01-01 00:00:00", 7⟩,
     ⟨[(99 : Fin 256)], "2023-01-01 00:00:00", 8⟩]
    [(97 : Fin 256)] ⟨(97 : Fin 256), by decide, by decide⟩
    ⟨[(97 : Fin 256), (0 : Fin 256)], "2023-01-01 00:00:00", 7⟩

/-! ## Facts about the byte-size formatter and parser -/

theorem digitChar_facts : ∀ d, d < 10 →
    (digitChar d).toNat = 48 + d ∧ (digitChar d).isDigit = true := by decide

theorem natToDecimalGo_spec : ∀ fuel n, n ≤ fuel →
    (∀ c ∈ natToDecimalGo fuel n, c.isDigit = true) ∧
    (natToDecimalGo fuel n).foldr (fun c a => a * 10 + (c.toNat - 48)) 0 = n ∧
    (n ≠ 0 → natToDecimalGo fuel n ≠ []) := by
  intro fuel
  induction fuel with
  | zero =>
      intro n hn
      obtain rfl : n = 0 := by omega
      simp [natToDecimalGo]
  | succ fuel ih =>
      intro n hn
      by_cases h0 : n = 0
      · subst h0
        simp [natToDecimalGo]
      · have hlt : n / 10 ≤ fuel := by
          have : n / 10 < n := Nat.div_lt_self (by omega) (by omega)
          omega
        obtain ⟨ihdig, ihval, _⟩ := ih (n / 10) hlt
        have hd := digitChar_facts (n % 10) (Nat.mod_lt n (by omega))
        refine ⟨?_, ?_, ?_⟩
        · intro c hc
          simp only [natToDecimalGo, if_neg h0] at hc
          rcases List.mem_cons.mp hc with rfl | hc'
          · exact hd.2
          · exact ihdig c hc'
        · simp only [natToDecimalGo, if_neg h0, List.foldr_cons, ihval, hd.1]
          omega
        · intro _
          simp [natToDecimalGo, if_neg h0]

/-- The decimal rendering consists of digits, parses back to its value, and
is never empty. -/
theorem natToDecimal_spec (n : Nat) :
    (∀ c ∈ natToDecimal n, c.isDigit = true) ∧
    decimalValue (natToDecimal n) = n ∧ natToDecimal n ≠ [] := by
  by_cases h0 : n = 0
  · subst h0
    refine ⟨by decide, by decide, by decide⟩
  · obtain ⟨hdig, hval, hne⟩ := natToDecimalGo_spec n n le_rfl
    unfold natToDecimal
    rw [if_neg h0]
    refine ⟨?_, ?_, ?_⟩
    · intro c hc
      exact hdig c (List.mem_reverse.mp hc)
    · rw [decimalValue, List.foldl_reverse]
      exact hval
    · intro hrev
      exact hne h0 (by simpa using hrev)

theorem takeWhile_all_append {α : Type} (p : α → Bool) (l1 l2 : List α)
    (h : ∀ a ∈ l1, p a = true) :
    (l1 ++ l2).takeWhile p = l1 ++ l2.takeWhile p := by
  induction l1 with
  | nil => simp
  | cons a t ih =>
      have ha : p a = true := h a (List.mem_cons_self a t)
      have ht : ∀ x ∈ t, p x = true := fun x hx => h x (List.mem_cons_of_mem a hx)
      simp [List.takeWhile_cons, ha, ih ht]

theorem dropWhile_spaces (j : Nat) (l : List Char)
    (hhead : ∀ c, l.head? = some c → ¬ c = ' ') :
    (List.replicate j ' ' ++ l).dropWhile (fun c => c = ' ') = l := by
  induction j with
  | zero =>
      cases l with
      | nil => simp
      | cons a t =>
          have := hhead a rfl
          simp [List.dropWhile_cons, this]
  | succ j ih => simpa [List.replicate_succ, List.dropWhile_cons] using ih

theorem lookup_mem {α β : Type} [BEq α] [LawfulBEq α] :
    ∀ {l : List (α × β)} {a : α} {b : β}, l.lookup a = some b → (a, b) ∈ l := by
  intro l
  induction l with
  | nil => intro a b h; simp [List.lookup] at h
  | cons kv rest ih =>
      intro a b h
      obtain ⟨k, v⟩ := kv
      cases hbeq : a == k with
      | true =>
          have hk : a = k := eq_of_beq hbeq
          subst hk
          have hv : v = b := by simpa [List.lookup] using h
          subst hv
          exact List.mem_cons_self _ _
      | false =>
          simp only [List.lookup, hbeq] at h
          exact List.mem_cons_of_mem _ (ih h)

/-- Every accepted unit spelling is nonempty and starts with a letter that
is neither a digit nor a space. -/
theorem unitTable_shape : ∀ p ∈ unitTable,
    p.1.data ≠ [] ∧ (p.1.data.headD 'x').isDigit = false ∧
    ¬ p.1.data.headD 'x' = ' ' := by decide

/-- No accepted unit spelling extended by a trailing space is accepted. -/
theorem unitTable_no_trailing_space : ∀ p ∈ unitTable,
    unitTable.lookup (String.mk (p.1.data ++ [' '])) = none := by decide

/-- How `FromStr for Bytes` evaluates on a well-shaped input: digits, then
`j ≥ 0` spaces, then an accepted unit; only the two overflow checks remain. -/
theorem bytesFromStr_split (ds : List Char) (j : Nat) (u : String) (shift : Nat)
    (hds : ds ≠ []) (hdig : ∀ c ∈ ds, c.isDigit = true)
    (hu : unitShift u = some shift) :
    bytesFromStr (String.mk (ds ++ List.replicate j ' ' ++ u.data)) =
      if 18446744073709551616 ≤ decimalValue ds then Except.error "overflow"
      else if (decimalValue ds <<< shift) % 18446744073709551616 ≠
              rotateLeft64 (decimalValue ds) shift then Except.error "overflow"
      else Except.ok ((decimalValue ds <<< shift) % 18446744073709551616) := by
  have hmem := lookup_mem hu
  obtain ⟨hune, hhead1, hhead2⟩ := unitTable_shape (u, shift) hmem
  obtain ⟨c0, urest, hu_data⟩ := List.exists_cons_of_ne_nil hune
  have hc0dig : c0.isDigit = false := by
    rw [hu_data] at hhead1
    simpa using hhead1
  have hc0sp : ¬ c0 = ' ' := by
    rw [hu_data] at hhead2
    simpa using hhead2
  have hnot0 : String.mk (ds ++ List.replicate j ' ' ++ u.data) ≠ "0" := by
    intro h
    have hdata : ds ++ List.replicate j ' ' ++ u.data = ['0'] := congrArg String.data h
    have hlen := congrArg List.length hdata
    have hdlen : 1 ≤ ds.length := by
      cases ds with
      | nil => exact absurd rfl hds
      | cons a t => simp
    rw [hu_data] at hlen
    simp [List.length_append] at hlen
    omega
  have htw : ((ds ++ (List.replicate j ' ' ++ u.data)).takeWhile Char.isDigit) = ds := by
    rw [takeWhile_all_append _ _ _ hdig]
    have hrest : (List.replicate j ' ' ++ u.data).takeWhile Char.isDigit = [] := by
      cases j with
      | zero =>
          rw [List.replicate, List.nil_append, hu_data, List.takeWhile_cons, hc0dig]
          simp
      | succ j' =>
          rw [List.replicate_succ, List.cons_append, List.takeWhile_cons]
          simp
    rw [hrest, List.append_nil]
  have hdlen : ds.length ≠ 0 := by
    intro h
    exact hds (List.length_eq_zero.mp h)
  unfold bytesFromStr
  rw [if_neg hnot0]
  have hcs : (String.mk (ds ++ List.replicate j ' ' ++ u.data)).data
      = ds ++ List.replicate j ' ' ++ u.data := rfl
  have hdw : (List.replicate j ' ' ++ u.data).dropWhile (fun c => c = ' ') = u.data := by
    apply dropWhile_spaces
    intro c hc
    rw [hu_data] at hc
    simp at hc
    rw [← hc]
    exact hc0sp
  have hne_empty : ¬ (u.data.isEmpty = true) := by
    rw [hu_data]
    simp
  have humk : String.mk u.data = u := rfl
  simp only [hcs, List.append_assoc, htw]
  rw [if_neg hdlen, List.take_left, List.drop_left, hdw, if_neg hne_empty, humk, hu]

/-- The `with_symbol` loop, fueled: with enough fuel it shifts `whole` right
ten bits at a time until it fits in ten bits, counting the shifts. -/
theorem withSymbolGo_spec : ∀ fuel w s, w ≤ fuel →
    ∃ k, withSymbolGo fuel w s = (w >>> (10 * k), s + k) ∧
      (w >>> (10 * k)) >>> 10 = 0 ∧
      (∀ j, j < k → w >>> (10 * j + 10) ≠ 0) := by
  intro fuel
  induction fuel with
  | zero =>
      intro w s hw
      obtain rfl : w = 0 := by omega
      refine ⟨0, by simp [withSymbolGo], by simp, ?_⟩
      intro j hj
      omega
  | succ fuel ih =>
      intro w s hw
      by_cases h : w >>> 10 = 0
      · refine ⟨0, by simp [withSymbolGo, h], by simpa using h, ?_⟩
        intro j hj
        omega
      · have h1024 : 1024 ≤ w := by
          by_contra hlt
          apply h
          rw [Nat.shiftRight_eq_div_pow]
          exact Nat.div_eq_of_lt (by omega)
        have hle : w >>> 10 ≤ fuel := by
          have hdiv : w >>> 10 < w := by
            rw [Nat.shiftRight_eq_div_pow]
            exact Nat.div_lt_self (by omega) (by norm_num)
          omega
        obtain ⟨k, heq, hguard, hall⟩ := ih (w >>> 10) (s + 1) hle
        have hshift : ∀ m : Nat, (w >>> 10) >>> m = w >>> (10 + m) := by
          intro m
          rw [← Nat.shiftRight_add]
        refine ⟨k + 1, ?_, ?_, ?_⟩
        · have hstep : withSymbolGo (fuel + 1) w s = withSymbolGo fuel (w >>> 10) (s + 1) := by
            simp [withSymbolGo, h]
          rw [hstep, heq, hshift (10 * k),
            show 10 + 10 * k = 10 * (k + 1) from by omega,
            show s + 1 + k = s + (k + 1) from by omega]
        · have hg := hguard
          rw [hshift (10 * k), show 10 + 10 * k = 10 * (k + 1) from by omega] at hg
          exact hg
        · intro j hj
          cases j with
          | zero => simpa using h
          | succ j' =>
              have hj' := hall j' (by omega)
              rw [hshift (10 * j' + 10),
                show 10 + (10 * j' + 10) = 10 * (j' + 1) + 10 from by omega] at hj'
              exact hj'

/-- `Bytes::with_symbol` on `v`: the displayed whole part is `v >>> 10k`,
below 1024; for `v ≥ 1024` it is nonzero and `k ≥ 1`; for `v < 1024` no
shift happens. -/
theorem withSymbol_spec (v : Nat) :
    ∃ k, withSymbol v = (v >>> (10 * k), k) ∧ v >>> (10 * k) < 1024 ∧
      (1024 ≤ v → 1 ≤ v >>> (10 * k)) ∧ (v < 1024 → k = 0) := by
  obtain ⟨k, heq, hguard, hall⟩ := withSymbolGo_spec v v 0 le_rfl
  refine ⟨k, by simpa using heq, ?_, ?_, ?_⟩
  · by_contra hge
    push_neg at hge
    rw [Nat.shiftRight_eq_div_pow] at hguard
    have h1 : 1 ≤ v >>> (10 * k) / 2 ^ 10 :=
      (Nat.one_le_div_iff (by norm_num)).mpr (by norm_num; omega)
    omega
  · intro h1024
    cases k with
    | zero =>
        simp only [Nat.mul_zero, Nat.shiftRight_zero]
        omega
    | succ k' =>
        have hj := hall k' (Nat.lt_succ_self k')
        rw [show 10 * k' + 10 = 10 * (k' + 1) from by omega] at hj
        omega
  · intro hlt
    by_contra hk
    have hj := hall 0 (by omega)
    simp only [Nat.mul_zero, Nat.zero_add] at hj
    apply hj
    rw [Nat.shiftRight_eq_div_pow]
    exact Nat.div_eq_of_lt (by omega)

/-- When the shifted value fits, the truncating shift agrees with
`rotate_left`, so the parser's overflow check passes. -/
theorem shl_eq_rotate (n s : Nat) (hs : s < 64) (hn : n < 2 ^ (64 - s)) :
    (n <<< s) % 18446744073709551616 = n <<< s ∧
    rotateLeft64 n s = n <<< s := by
  have hpow : (2 : Nat) ^ (64 - s) * 2 ^ s = 18446744073709551616 := by
    rw [← pow_add, Nat.sub_add_cancel (le_of_lt hs)]
    norm_num
  have h1 : n <<< s < 18446744073709551616 := by
    rw [Nat.shiftLeft_eq]
    calc n * 2 ^ s < 2 ^ (64 - s) * 2 ^ s :=
          (Nat.mul_lt_mul_right (pow_pos (by norm_num) s)).mpr hn
    _ = 18446744073709551616 := hpow
  have h2 : n >>> (64 - s) = 0 := by
    rw [Nat.shiftRight_eq_div_pow]
    exact Nat.div_eq_of_lt hn
  refine ⟨Nat.mod_eq_of_lt h1, ?_⟩
  unfold rotateLeft64
  rw [Nat.mod_eq_of_lt hs, Nat.mod_eq_of_lt h1, h2]
  exact Nat.or_zero _

/-- The prefix symbols at indexes 1–6 combine with `B` into accepted units
whose shift is ten times the index. -/
theorem prefix_unit_shift : ∀ k, k < 7 → 1 ≤ k →
    unitShift (String.mk [PREFIX_SYMBOLS.getD k ' ', 'B']) = some (10 * k) := by decide

/-- Counterexample to C6 as stated: `format(12345) = "12KB"` but
`parse("12KB") = 12288 ≠ 12345`, so the byte-size round-trip fails on
values that are not multiples of the displayed unit. -/
theorem format_loses_precision :
    bytesDisplay 12345 = "12KB" ∧ bytesFromStr "12KB" = Except.ok 12288 ∧
    (12288 : Nat) ≠ 12345 := ⟨by decide, by decide, by decide⟩

/-- C6, amended: for every `u64` value `v`, parsing the canonical rendering
succeeds and yields `v` truncated to the displayed precision,
`(v >>> 10k) <<< 10k` for `k` the unit index; the round-trip
`parse(format(v)) = v` therefore holds exactly when that truncation loses
nothing — always for `v < 1024`, and otherwise iff `v` is a multiple of
`1024^k` — not for every representable value. -/
theorem parse_format_trunc (v : Nat) (hv : v < 18446744073709551616) :
    bytesFromStr (bytesDisplay v) = Except.ok (displayTrunc v) ∧
    (bytesFromStr (bytesDisplay v) = Except.ok v ↔ displayTrunc v = v) := by
  obtain ⟨k, heq, hlt1024, hge1, hk0⟩ := withSymbol_spec v
  have hmain : bytesFromStr (bytesDisplay v) = Except.ok (displayTrunc v) := by
    by_cases hvlt : v < 1024
    · have hk := hk0 hvlt
      subst hk
      obtain ⟨hdig, hval, hne⟩ := natToDecimal_spec v
      have hu : unitShift (String.mk ['B']) = some 0 := by decide
      have hdisp : bytesDisplay v =
          String.mk (natToDecimal v ++ List.replicate 0 ' ' ++ (String.mk ['B']).data) := by
        unfold bytesDisplay
        rw [if_pos hvlt]
        exact congrArg String.mk (by simp)
      have hn0 : v < 2 ^ (64 - 0) := by
        norm_num
        omega
      obtain ⟨hmod2, hrot⟩ := shl_eq_rotate v 0 (by omega) hn0
      rw [hdisp, bytesFromStr_split _ _ _ _ hne hdig hu, hval]
      rw [if_neg (by omega), if_neg (fun hne2 => hne2 (hmod2.trans hrot.symm)), hmod2]
      unfold displayTrunc
      rw [heq]
      simp
    · have h1024 : 1024 ≤ v := by omega
      have hw1 : 1 ≤ v >>> (10 * k) := hge1 h1024
      have hkne : k ≠ 0 := by
        intro hk
        subst hk
        simp only [Nat.mul_zero, Nat.shiftRight_zero] at hlt1024
        omega
      have hpowle : 2 ^ (10 * k) ≤ v := by
        rw [Nat.shiftRight_eq_div_pow] at hw1
        exact (Nat.one_le_div_iff (pow_pos (by norm_num) _)).mp hw1
      have hk7 : k < 7 := by
        by_contra hk7
        have h70 : 64 ≤ 10 * k := by omega
        have hbig : (18446744073709551616 : Nat) ≤ 2 ^ (10 * k) := by
          calc (18446744073709551616 : Nat) = 2 ^ 64 := by norm_num
          _ ≤ 2 ^ (10 * k) := Nat.pow_le_pow_right (by norm_num) h70
        omega
      have hsh : 10 * k < 64 := by omega
      have hu := prefix_unit_shift k hk7 (by omega)
      obtain ⟨hdig, hval, hne⟩ := natToDecimal_spec (v >>> (10 * k))
      have hdisp : bytesDisplay v =
          String.mk (natToDecimal (v >>> (10 * k)) ++ List.replicate 0 ' '
            ++ (String.mk [PREFIX_SYMBOLS.getD k ' ', 'B']).data) := by
        unfold bytesDisplay
        rw [if_neg hvlt, heq]
        exact congrArg String.mk (by simp)
      have hwlt : v >>> (10 * k) < 2 ^ (64 - 10 * k) := by
        rw [Nat.shiftRight_eq_div_pow]
        rw [Nat.div_lt_iff_lt_mul (pow_pos (by norm_num) _)]
        calc v < 18446744073709551616 := hv
        _ = 2 ^ 64 := by norm_num
        _ = 2 ^ (64 - 10 * k + 10 * k) := by rw [Nat.sub_add_cancel (le_of_lt hsh)]
        _ = 2 ^ (64 - 10 * k) * 2 ^ (10 * k) := pow_add 2 _ _
      obtain ⟨hmod2, hrot⟩ := shl_eq_rotate (v >>> (10 * k)) (10 * k) hsh hwlt
      rw [hdisp, bytesFromStr_split _ _ _ _ hne hdig hu, hval]
      rw [if_neg (by omega), if_neg (fun hne2 => hne2 (hmod2.trans hrot.symm)), hmod2]
      unfold displayTrunc
      rw [heq]
  exact ⟨hmain, by rw [hmain]; simp⟩

/-- Witness for the amended C6 at `v = 12345`. -/
theorem parse_format_trunc_witness :
    (12345 : Nat) < 18446744073709551616 ∧
    bytesFromStr (bytesDisplay 12345) = Except.ok (displayTrunc 12345) :=
  ⟨by decide, (parse_format_trunc 12345 (by decide)).1⟩

/-- Counterexample to C7 as stated: the mixed-case variants `Kb`, `mB` and
`gIb` of units the claim says parse case-insensitively are rejected, while
the canonical `KB` parses. -/
theorem mixed_case_unit_rejected :
    bytesFromStr "1Kb" = Except.error "unrecognized unit" ∧
    bytesFromStr "1mB" = Except.error "unrecognized unit" ∧
    bytesFromStr "1gIb" = Except.error "unrecognized unit" ∧
    bytesFromStr "1KB" = Except.ok 1024 := by decide

/-- C7, amended: the unit spellings `from_str` accepts are exactly those of
the source's match — for each prefix the bare letter in either case, the
uppercase-with-`B` form, the all-lowercase forms, the canonical `iB` form,
and additionally `kB`/`kiB` — and every accepted spelling of a unit yields
the same value, `1 <<< shift`; other mixed-case variants such as `Kb`,
`mB`, `gIb` are rejected. -/
theorem unit_variants_parse : ∀ p ∈ unitTable,
    bytesFromStr ("1" ++ p.1) = Except.ok (1 <<< p.2) := by decide

/-- Witness for the amended C7: the spelling `KiB`. -/
theorem unit_variants_parse_witness :
    ("KiB", 10) ∈ unitTable ∧ bytesFromStr ("1" ++ "KiB") = Except.ok (1 <<< 10) :=
  ⟨by decide, unit_variants_parse ("KiB", 10) (by decide)⟩

/-- C10: for a byte-size string `<integer><unit>` accepted by `from_str`,
inserting one or more ASCII spaces between the integer and the unit yields
the same successful parse, while a space before the integer fails with
"missing number" and a space after the unit fails with
"unrecognized unit". -/
theorem spaces_between_number_and_unit (ds : List Char) (u : String) (shift v : Nat)
    (hds : ds ≠ []) (hdig : ∀ c ∈ ds, c.isDigit = true)
    (hu : unitShift u = some shift)
    (hok : bytesFromStr (String.mk (ds ++ u.data)) = Except.ok v) :
    (∀ k, bytesFromStr (String.mk (ds ++ List.replicate (k + 1) ' ' ++ u.data)) =
      Except.ok v) ∧
    bytesFromStr (String.mk (' ' :: (ds ++ u.data))) = Except.error "missing number" ∧
    bytesFromStr (String.mk (ds ++ u.data ++ [' '])) = Except.error "unrecognized unit" := by
  have hok0 : bytesFromStr (String.mk (ds ++ List.replicate 0 ' ' ++ u.data)) =
      Except.ok v := by
    simpa using hok
  rw [bytesFromStr_split ds 0 u shift hds hdig hu] at hok0
  by_cases hov1 : 18446744073709551616 ≤ decimalValue ds
  · rw [if_pos hov1] at hok0
    exact absurd hok0 (by simp)
  rw [if_neg hov1] at hok0
  by_cases hov2 : (decimalValue ds <<< shift) % 18446744073709551616 ≠
      rotateLeft64 (decimalValue ds) shift
  · rw [if_pos hov2] at hok0
    exact absurd hok0 (by simp)
  rw [if_neg hov2] at hok0
  have hdlen : ds.length ≠ 0 := fun h => hds (List.length_eq_zero.mp h)
  refine ⟨?_, ?_, ?_⟩
  · intro k
    rw [bytesFromStr_split ds (k + 1) u shift hds hdig hu, if_neg hov1, if_neg hov2]
    exact hok0
  · have hnot0 : String.mk (' ' :: (ds ++ u.data)) ≠ "0" := by
      intro h
      have h2 : (' ' :: (ds ++ u.data)) = ['0'] := congrArg String.data h
      exact absurd ((List.cons.injEq _ _ _ _).mp h2).1 (by decide)
    unfold bytesFromStr
    rw [if_neg hnot0]
    have hcs : (String.mk (' ' :: (ds ++ u.data))).data = ' ' :: (ds ++ u.data) := rfl
    have htw : ((' ' :: (ds ++ u.data)).takeWhile Char.isDigit) = [] := by
      rw [List.takeWhile_cons, show (' '.isDigit) = false from by decide]
      simp
    simp only [hcs, htw]
    simp
  · have hmem := lookup_mem hu
    obtain ⟨hune, hhead1, hhead2⟩ := unitTable_shape (u, shift) hmem
    obtain ⟨c0, urest, hu_data⟩ := List.exists_cons_of_ne_nil hune
    have hc0dig : c0.isDigit = false := by
      rw [hu_data] at hhead1
      simpa using hhead1
    have hc0sp : ¬ c0 = ' ' := by
      rw [hu_data] at hhead2
      simpa using hhead2
    have hdlen1 : 1 ≤ ds.length := by
      cases ds with
      | nil => exact absurd rfl hds
      | cons a t => simp
    have hnot0 : String.mk (ds ++ u.data ++ [' ']) ≠ "0" := by
      intro h
      have h2 : ds ++ u.data ++ [' '] = ['0'] := congrArg String.data h
      have hlen := congrArg List.length h2
      rw [hu_data] at hlen
      simp [List.length_append] at hlen
      omega
    unfold bytesFromStr
    rw [if_neg hnot0]
    have hcs : (String.mk (ds ++ u.data ++ [' '])).data = ds ++ (u.data ++ [' ']) := by
      show ds ++ u.data ++ [' '] = ds ++ (u.data ++ [' '])
      rw [List.append_assoc]
    have htw : ((ds ++ (u.data ++ [' '])).takeWhile Char.isDigit) = ds := by
      rw [takeWhile_all_append _ _ _ hdig, hu_data, List.cons_append, List.takeWhile_cons,
        hc0dig]
      simp
    simp only [hcs, List.append_assoc, htw]
    rw [if_neg hdlen, List.take_left, List.drop_left, if_neg hov1]
    have hdw : ((u.data ++ [' ']).dropWhile (fun c => c = ' ')) = u.data ++ [' '] := by
      rw [hu_data, List.cons_append, List.dropWhile_cons]
      simp [hc0sp]
    rw [hdw]
    have hne2 : ¬ ((u.data ++ [' ']).isEmpty = true) := by
      rw [hu_data]
      simp
    rw [if_neg hne2]
    have hnone : unitShift (String.mk (u.data ++ [' '])) = none :=
      unitTable_no_trailing_space (u, shift) hmem
    rw [hnone]

/-- Witness for C10: `"1KB"` with one inserted space, a leading space, and
a trailing space. -/
theorem spaces_between_number_and_unit_witness :
    bytesFromStr (String.mk (['1'] ++ List.replicate 1 ' ' ++ "KB".data)) =
      Except.ok 1024 ∧
    bytesFromStr (String.mk (' ' :: (['1'] ++ "KB".data))) =
      Except.error "missing number" ∧
    bytesFromStr (String.mk (['1'] ++ "KB".data ++ [' '])) =
      Except.error "unrecognized unit" :=
  ⟨(spaces_between_number_and_unit ['1'] "KB" 10 1024 (by decide) (by decide) (by decide)
      (by decide)).1 0,
   (spaces_between_number_and_unit ['1'] "KB" 10 1024 (by decide) (by decide) (by decide)
      (by decide)).2.1,
   (spaces_between_number_and_unit ['1'] "KB" 10 1024 (by decide) (by decide) (by decide)
      (by decide)).2.2⟩

/-! ## Pinned evaluations

Concrete checks of the embedded definitions against the SHA-256 standard
test vectors and the unit tests in `src/bytes.rs`. -/

example : sha256 [] = emptySha256 := by decide

example : sha256 [97, 98, 99] =
    [186, 120, 22, 191, 143, 1, 207, 234,
     65, 65, 64, 222, 93, 174, 34, 35,
     176, 3, 97, 163, 150, 23, 122, 156,
     180, 16, 255, 97, 242, 0, 21, 173] := by decide

example : bytesFromStr "0" = Except.ok 0 := by decide
example : bytesFromStr "0 B" = Except.ok 0 := by decide
example : bytesFromStr "1KB" = Except.ok 1024 := by decide
example : bytesFromStr "2kb" = Except.ok 2048 := by decide
example : bytesFromStr "3kB" = Except.ok 3072 := by decide
example : bytesFromStr "4096B" = Except.ok 4096 := by decide
example : bytesFromStr "1tib" = Except.ok 1099511627776 := by decide
example : bytesFromStr "1" = Except.error "missing unit" := by decide
example : bytesFromStr "AB" = Except.error "missing number" := by decide
example : bytesFromStr "16EB" = Except.error "overflow" := by decide
example : bytesFromStr "0 " = Except.error "missing unit" := by decide
example : bytesFromStr "0B " = Except.error "unrecognized unit" := by decide
example : bytesFromStr "00" = Except.error "missing unit" := by decide
example : bytesFromStr "0bb" = Except.error "unrecognized unit" := by decide
example : bytesDisplay 0 = "0B" := by decide
example : bytesDisplay 1023 = "1023B" := by decide
example : bytesDisplay 12345 = "12KB" := by decide
example : bytesDisplay (128 <<< 20) = "128MB" := by decide
example : bytesDisplay 18446744073709551615 = "15EB" := by decide

example : successor [(97 : Fin 256)] = [(98 : Fin 256)] := by decide
example : successor [(97 : Fin 256), (255 : Fin 256), (255 : Fin 256)] = [(98 : Fin 256)] := by
  decide
example : successor [(255 : Fin 256), (255 : Fin 256)] = ([] : List (Fin 256)) := by decide

end Decopy
